import Mathlib

/-!
Shallow embedding of `src/liquid/builtin/tags/tablerow_tag.py`.

The tablerow tag's data model is embedded as follows: Python integers become
`Int`, Python's `%` on integers becomes `Int.fmod` (both give a result with
the sign of the divisor), `math.ceil(a / b)` becomes `mathCeilDiv` (the exact
rational ceiling, negated floor division), mutable objects become records
threaded through pure functions, and code that can raise becomes functions
into `String × Option PyErr` (buffer contents plus an optional abort) or
`Except PyErr`.  The `TextIO` buffer of the source is modelled by returning
the string written; all writes in the source happen strictly after every
possible raise point of the same function, so an aborted call has written
nothing.
-/

/-- Kinds of Python exception that the embedded code can signal.
`zeroDivisionError` models `ZeroDivisionError` (from `math.ceil(length / 0)`),
`valueError` models `ValueError` (from `islice` with a negative stop),
`assertionError` models `AssertionError` (from `assert isinstance(cols, int)`),
`typeError` models `liquid.exceptions.LiquidTypeError` (never raised by the
tablerow code itself), and `keyError` models `KeyError`. -/
inductive PyErr where
  | zeroDivisionError
  | valueError
  | assertionError
  | typeError
  | keyError (key : String)
  deriving DecidableEq

/-- Decidable equality of `Except` results, so that concrete runs of the
embedded fallible operations can be checked by evaluation. -/
instance instDecidableEqExcept {ε α : Type} [DecidableEq ε] [DecidableEq α] :
    DecidableEq (Except ε α) := fun a b =>
  match a, b with
  | .ok x, .ok y =>
      if h : x = y then isTrue (congrArg Except.ok h)
      else isFalse (fun hc => h (Except.ok.inj hc))
  | .ok _, .error _ => isFalse (fun hc => Except.noConfusion hc)
  | .error _, .ok _ => isFalse (fun hc => Except.noConfusion hc)
  | .error x, .error y =>
      if h : x = y then isTrue (congrArg Except.error h)
      else isFalse (fun hc => h (Except.error.inj hc))

/-- A value returned by `TableRow.__getitem__`: every exposed field is an
integer or a boolean. -/
inductive TableRowValue where
  | int (n : Int)
  | bool (b : Bool)
  deriving DecidableEq

/-- The fixed list bound to `self.keys` in `TableRow.__init__`. -/
def tablerowKeys : List String :=
  ["length", "index", "index0", "rindex", "rindex0", "first", "last",
   "col", "col0", "col_first", "col_last"]

/-- Models Python `math.ceil(a / b)` on integers: the exact rational ceiling,
written as the negated floor division `-((-a) // b)`. -/
def mathCeilDiv (a b : Int) : Int := -(Int.fdiv (-a) b)

/-- The `TableRow` helper object of `tablerow_tag.py` (its `__slots__`). -/
structure TableRow (α : Type) where
  name : String
  length : Int
  ncols : Int
  item : Option α
  first : Bool
  last : Bool
  index : Int
  index0 : Int
  rindex : Int
  rindex0 : Int
  col : Int
  col0 : Int
  col_first : Bool
  col_last : Bool
  keys : List String
  row : Int
  nrows : Int
  deriving DecidableEq

/-- `TableRow.__init__`.  The only statement in it that can raise is
`math.ceil(self.length / self.ncols)` when `ncols == 0`, which is a
`ZeroDivisionError`; there is no argument validation. -/
def TableRow.init {α : Type} (name : String) (length ncols : Int) :
    Except PyErr (TableRow α) :=
  if ncols = 0 then .error .zeroDivisionError
  else
    .ok { name := name
          length := length
          ncols := ncols
          item := none
          first := false
          last := false
          index := 0
          index0 := -1
          rindex := length + 1
          rindex0 := length
          col := 0
          col0 := -1
          col_first := true
          col_last := false
          keys := tablerowKeys
          row := 0
          nrows := mathCeilDiv length ncols }

/-- `TableRow.step`. -/
def TableRow.step {α : Type} (tr : TableRow α) (x : α) : TableRow α :=
  let index0 := tr.index0 + 1
  let rindex0 := tr.rindex0 - 1
  let col0 := Int.fmod index0 tr.ncols
  let col := col0 + 1
  { tr with
    item := some x
    index := tr.index + 1
    index0 := index0
    rindex := tr.rindex - 1
    rindex0 := rindex0
    first := decide (index0 = 0)
    last := decide (rindex0 = 0)
    col0 := col0
    col := col
    col_first := decide (col = 1)
    col_last := decide (col = tr.ncols)
    row := if col = 1 then tr.row + 1 else tr.row }

/-- The `getattr(self, key)` reads that `TableRow.__getitem__` can reach
(one branch per name in `self.keys`). -/
def TableRow.getattr {α : Type} (tr : TableRow α) (key : String) :
    Option TableRowValue :=
  if key = "length" then some (.int tr.length)
  else if key = "index" then some (.int tr.index)
  else if key = "index0" then some (.int tr.index0)
  else if key = "rindex" then some (.int tr.rindex)
  else if key = "rindex0" then some (.int tr.rindex0)
  else if key = "first" then some (.bool tr.first)
  else if key = "last" then some (.bool tr.last)
  else if key = "col" then some (.int tr.col)
  else if key = "col0" then some (.int tr.col0)
  else if key = "col_first" then some (.bool tr.col_first)
  else if key = "col_last" then some (.bool tr.col_last)
  else none

/-- `TableRow.__getitem__`: a key in `self.keys` is read with `getattr`,
anything else raises `KeyError(key)`. -/
def TableRow.getItem {α : Type} (tr : TableRow α) (key : String) :
    Except PyErr TableRowValue :=
  if key ∈ tr.keys then
    match tr.getattr key with
    | some v => .ok v
    | none => .error (.keyError key)
  else .error (.keyError key)

/-- A value returned by `TableRowDrop.__getitem__`: either the wrapped
`TableRow` mapping or the current item. -/
inductive DropValue (α : Type) where
  | loop (tablerow : TableRow α)
  | item (x : Option α)
  deriving DecidableEq

/-- The `TableRowDrop` namespace adapter.  Its `_exit` list is used as a
stack (`append`/`pop` at the same end); here the head of `exit` is the top
of that stack. -/
structure TableRowDrop (α : Type) where
  tablerow : TableRow α
  name : String
  exit : List String
  deriving DecidableEq

/-- `TableRowDrop.__init__`: builds the wrapped `TableRow` (propagating the
error it can raise) and starts with an empty `_exit` stack. -/
def TableRowDrop.init {α : Type} (name : String) (length ncols : Int) :
    Except PyErr (TableRowDrop α) :=
  match TableRow.init (α := α) name length ncols with
  | .error e => .error e
  | .ok tr => .ok { tablerow := tr, name := name, exit := [] }

/-- `TableRowDrop.__getitem__`: the fixed key `"tablerowloop"` is tested
first, then the loop-variable name; anything else raises `KeyError`. -/
def TableRowDrop.getItem {α : Type} (d : TableRowDrop α) (key : String) :
    Except PyErr (DropValue α) :=
  if key = "tablerowloop" then .ok (.loop d.tablerow)
  else if key = d.name then .ok (.item d.tablerow.item)
  else .error (.keyError key)

/-- `TableRowDrop.step`: delegates to the wrapped `TableRow`. -/
def TableRowDrop.step {α : Type} (d : TableRowDrop α) (x : α) : TableRowDrop α :=
  { d with tablerow := d.tablerow.step x }

/-- `TableRowDrop.empty_exit_buffer`: pop the pending closing markup and
write it, or do nothing when the stack is empty.  Returns the updated drop
and the string written. -/
def TableRowDrop.empty_exit_buffer {α : Type} (d : TableRowDrop α) :
    TableRowDrop α × String :=
  match d.exit with
  | [] => (d, "")
  | e :: rest => ({ d with exit := rest }, e)

/-- `TableRowDrop.step_write`: flush the pending closing markup, step the
metadata, write the opening row tag when a new row starts, write the opening
cell tag, and push the closing markup chosen by lookahead.  Returns the
updated drop and the string written. -/
def TableRowDrop.step_write {α : Type} (d : TableRowDrop α) (x : α) :
    TableRowDrop α × String :=
  let p := d.empty_exit_buffer
  let d0 := p.1.step x
  let tr := d0.tablerow
  let rowTag :=
    if tr.col = 1 ∧ tr.row ≤ tr.nrows then
      "<tr class=\"row" ++ toString tr.row ++ "\">"
    else ""
  let cellTag := "<td class=\"col" ++ toString tr.col ++ "\">"
  let closing :=
    if tr.col = tr.ncols ∨ tr.index = tr.length then "</td></tr>" else "</td>"
  ({ d0 with exit := closing :: d0.exit }, p.2 ++ rowTag ++ cellTag)

/-- The result of evaluating the tablerow tag's cols (group-size) expression:
the cases the claims exercise are an integer and a non-integer such as a
string. -/
inductive ColsVal where
  | int (n : Int)
  | str (s : String)
  deriving DecidableEq

/-- Structural worker for `grouper`, with the list length as fuel (every
recursive call consumes at least one element, so length is enough fuel). -/
def grouperGo {α : Type} (c : Nat) : Nat → List α → List (List α)
  | _, [] => []
  | 0, _ :: _ => []
  | fuel + 1, x :: xs => (x :: xs.take (c - 1)) :: grouperGo c fuel (xs.drop (c - 1))

/-- The module-level `grouper(iterable, n)`: consecutive chunks of size `n`,
the last possibly shorter, stopping at the first empty chunk — so `n = 0`
yields no chunks at all (an `islice` stop of `0` produces `()` immediately). -/
def grouper {α : Type} (l : List α) (c : Nat) : List (List α) :=
  if c = 0 then [] else grouperGo c l.length l

/-- The inner loop of `TablerowNode.render_to_output` over one row (one
chunk): `drop.step(data)`, then the cell markup around the rendered block.
`j` is the 0-based `enumerate` counter.  The rendered block is abstracted as
`body`, a function of the `TableRow` state it can observe through the
extended context. -/
def interpRow {α : Type} (d : TableRowDrop α) (chunk : List α)
    (body : TableRow α → String) (j : Nat) : TableRowDrop α × String :=
  match chunk with
  | [] => (d, "")
  | x :: xs =>
      let d1 := d.step x
      let rest := interpRow d1 xs body (j + 1)
      (rest.1,
        "<td class=\"col" ++ toString (j + 1) ++ "\">" ++ body d1.tablerow
          ++ "</td>" ++ rest.2)

/-- The outer loop of `TablerowNode.render_to_output` over the chunks.
`i` is the 0-based `enumerate` counter. -/
def interpChunks {α : Type} (d : TableRowDrop α) (chunks : List (List α))
    (body : TableRow α → String) (i : Nat) : TableRowDrop α × String :=
  match chunks with
  | [] => (d, "")
  | chunk :: rest =>
      let r := interpRow d chunk body 0
      let rr := interpChunks r.1 rest body (i + 1)
      (rr.1,
        "<tr class=\"row" ++ toString (i + 1) ++ "\">" ++ r.2 ++ "</tr>" ++ rr.2)

/-- `TablerowNode.render_to_output`, with the loop expression already
evaluated: `items` is `list(self.expression.evaluate(context))`, `cols` is
the evaluated group-size expression (or `none` when the tag has no `cols`),
and `body` abstracts `self.block.render` against the extended context.
Returns the buffer contents plus the error that aborted rendering, if any;
in the source every raise point precedes every write, so an aborted call
has empty output. -/
def render_to_output {α : Type} (items : List α) (cols : Option ColsVal)
    (name : String) (body : TableRow α → String) : String × Option PyErr :=
  match cols with
  | some (.str _) => ("", some .assertionError)
  | some (.int c) =>
      if c < 0 then ("", some .valueError)
      else
        let chunks := grouper items c.toNat
        match TableRowDrop.init (α := α) name (items.length : Int) c with
        | .error e => ("", some e)
        | .ok d => ((interpChunks d chunks body 0).2, none)
  | none =>
      match TableRowDrop.init (α := α) name (items.length : Int) 1 with
      | .error e => ("", some e)
      | .ok d => ((interpChunks d [items] body 0).2, none)

/-- One `STEP` of the compiled loop followed by the block body: the drop's
`step_write` emission, then the body rendered against the stepped state. -/
def vmSteps {α : Type} (d : TableRowDrop α) (items : List α)
    (body : TableRow α → String) : TableRowDrop α × String :=
  match items with
  | [] => (d, "")
  | x :: xs =>
      let p := d.step_write x
      let r := vmSteps p.1 xs body
      (r.1, p.2 ++ body p.1.tablerow ++ r.2)

/-- Modelled from the spec: the Compiler+VM execution of the block that
`TablerowNode.compile_node` emits.  The compiler, symbol table, VM and the
handlers of the `STE`/`JMP`/`STO`/`TAB` opcodes are not under `src/`; per
the spec's Virtual Machine section, markup emission for this construct is a
VM side effect tied to `STEP` and `SCOPE_EXIT`: each `STEP` performs the
namespace adapter's buffered step-and-emit (`TableRowDrop.step_write`)
before the block body runs, and `SCOPE_EXIT` flushes the pending closing
markup (`TableRowDrop.empty_exit_buffer`).  The loop expression and the
group-size operand are already evaluated, as in `render_to_output`. -/
def vmRender {α : Type} (items : List α) (cols : Int) (name : String)
    (body : TableRow α → String) : String × Option PyErr :=
  match TableRowDrop.init (α := α) name (items.length : Int) cols with
  | .error e => ("", some e)
  | .ok d =>
      let r := vmSteps d items body
      (r.2 ++ r.1.empty_exit_buffer.2, none)

/-- The `TableRow` state after `s` calls to `step` on a freshly constructed
`TableRow(name, n, c)` with positive `c`, whose current item (for `s ≥ 1`)
is `it`.  `s = 0` is the freshly constructed state. -/
def canonTR {α : Type} (name : String) (n c : Nat) (s : Nat) (it : Option α) :
    TableRow α :=
  match s with
  | 0 =>
    { name := name
      length := (n : Int)
      ncols := (c : Int)
      item := it
      first := false
      last := false
      index := 0
      index0 := -1
      rindex := (n : Int) + 1
      rindex0 := (n : Int)
      col := 0
      col0 := -1
      col_first := true
      col_last := false
      keys := tablerowKeys
      row := 0
      nrows := mathCeilDiv (n : Int) (c : Int) }
  | t + 1 =>
    { name := name
      length := (n : Int)
      ncols := (c : Int)
      item := it
      first := decide (t + 1 = 1)
      last := decide (t + 1 = n)
      index := ((t + 1 : Nat) : Int)
      index0 := ((t + 1 : Nat) : Int) - 1
      rindex := (n : Int) - ((t + 1 : Nat) : Int) + 1
      rindex0 := (n : Int) - ((t + 1 : Nat) : Int)
      col := ((t % c : Nat) : Int) + 1
      col0 := ((t % c : Nat) : Int)
      col_first := decide (t % c = 0)
      col_last := decide (t % c + 1 = c)
      keys := tablerowKeys
      row := ((t / c : Nat) : Int) + 1
      nrows := mathCeilDiv (n : Int) (c : Int) }

/-- The markup opened for the element at 1-based position `t` of a grouped
iteration with group size `c`: a row tag exactly at the start of a group,
then the cell tag. -/
def pieceOpen (c t : Nat) : String :=
  (if (t - 1) % c = 0 then
    "<tr class=\"row" ++ toString ((t - 1) / c + 1) ++ "\">"
   else "")
    ++ "<td class=\"col" ++ toString ((t - 1) % c + 1) ++ "\">"

/-- The closing markup for the element at 1-based position `t` out of `n`
with group size `c`: the row also closes at the end of a group or at the
last element overall. -/
def pieceClose (n c t : Nat) : String :=
  if (t - 1) % c + 1 = c ∨ t = n then "</td></tr>" else "</td>"

/-- The canonical output of a grouped iteration over the remaining items,
starting after `s` elements have already been consumed: each element opens
its markup, renders the body against the canonical state, and closes its
markup immediately. -/
def tailOut {α : Type} (name : String) (n c : Nat) (body : TableRow α → String) :
    Nat → List α → String
  | _, [] => ""
  | s, x :: xs =>
      pieceOpen c (s + 1) ++ body (canonTR name n c (s + 1) (some x))
        ++ pieceClose n c (s + 1) ++ tailOut name n c body (s + 1) xs

/-! ### Small facts about the embedded operations -/

theorem TableRow.step_name {α : Type} (tr : TableRow α) (x : α) :
    (tr.step x).name = tr.name := rfl

theorem TableRow.step_length {α : Type} (tr : TableRow α) (x : α) :
    (tr.step x).length = tr.length := rfl

theorem TableRow.step_ncols {α : Type} (tr : TableRow α) (x : α) :
    (tr.step x).ncols = tr.ncols := rfl

theorem TableRow.step_nrows {α : Type} (tr : TableRow α) (x : α) :
    (tr.step x).nrows = tr.nrows := rfl

theorem TableRow.step_keys {α : Type} (tr : TableRow α) (x : α) :
    (tr.step x).keys = tr.keys := rfl

theorem toString_intCast (m : Nat) : toString ((m : Int)) = toString m := rfl

theorem fmod_natCast (s c : Nat) :
    Int.fmod (s : Int) (c : Int) = ((s % c : Nat) : Int) := by
  rw [Int.fmod_eq_emod _ (Int.natCast_nonneg c)]
  push_cast
  rfl

theorem mathCeilDiv_natCast (n c : Nat) (hc : 0 < c) :
    mathCeilDiv (n : Int) (c : Int) = (((n + c - 1) / c : Nat) : Int) := by
  obtain ⟨d, rfl⟩ : ∃ d, c = d + 1 := ⟨c - 1, by omega⟩
  cases n with
  | zero =>
      show -(Int.fdiv (-0) _) = _
      rw [neg_zero]
      have h0 : Int.fdiv 0 ((d + 1 : Nat) : Int) = 0 := rfl
      rw [h0]
      have : (0 + (d + 1) - 1) / (d + 1) = 0 := Nat.div_eq_of_lt (by omega)
      rw [this]
      rfl
  | succ k =>
      have h1 : -(((k + 1 : Nat) : Int)) = Int.negSucc k := rfl
      have h2 : Int.fdiv (Int.negSucc k) (((d + 1 : Nat) : Int)) =
          Int.negSucc (k / (d + 1)) := rfl
      show -(Int.fdiv (-((k + 1 : Nat) : Int)) ((d + 1 : Nat) : Int)) = _
      rw [h1, h2, Int.negSucc_eq]
      have h3 : (k + 1 + (d + 1) - 1) / (d + 1) = k / (d + 1) + 1 := by
        have : k + 1 + (d + 1) - 1 = k + (d + 1) := by omega
        rw [this, Nat.add_div_right _ (by omega)]
      rw [h3]
      push_cast
      ring

/-! ### Claim theorems: the loop-metadata object -/

/-- C2: one call to `step(item)` on a `TableRow` with positive group size
sets `item`, increments `index`/`index0`, decrements `rindex`/`rindex0`,
recomputes `first`/`last` from the zero-based positions, recomputes
`col0 = index0 mod ncols` and `col = col0 + 1`, recomputes
`col_first`/`col_last` from `col`, increments `row` exactly when `col = 1`,
and changes no other field. -/
theorem claim_c2_step_fields {α : Type} (tr : TableRow α) (x : α)
    (hpos : 0 < tr.ncols) :
    (tr.step x).item = some x
    ∧ (tr.step x).index = tr.index + 1
    ∧ (tr.step x).index0 = tr.index0 + 1
    ∧ (tr.step x).rindex = tr.rindex - 1
    ∧ (tr.step x).rindex0 = tr.rindex0 - 1
    ∧ ((tr.step x).first = true ↔ (tr.step x).index0 = 0)
    ∧ ((tr.step x).last = true ↔ (tr.step x).rindex0 = 0)
    ∧ (tr.step x).col0 = Int.fmod (tr.step x).index0 tr.ncols
    ∧ (tr.step x).col = (tr.step x).col0 + 1
    ∧ ((tr.step x).col_first = true ↔ (tr.step x).col = 1)
    ∧ ((tr.step x).col_last = true ↔ (tr.step x).col = tr.ncols)
    ∧ (tr.step x).row = (if (tr.step x).col = 1 then tr.row + 1 else tr.row)
    ∧ (tr.step x).name = tr.name
    ∧ (tr.step x).length = tr.length
    ∧ (tr.step x).ncols = tr.ncols
    ∧ (tr.step x).nrows = tr.nrows
    ∧ (tr.step x).keys = tr.keys := by
  simp [TableRow.step]

/-- Witness for C2 at a concrete state. -/
theorem claim_c2_step_fields_witness :
    ((canonTR (α := Unit) "x" 3 2 0 none).step ()).index
      = (canonTR (α := Unit) "x" 3 2 0 none).index + 1 :=
  (claim_c2_step_fields (canonTR "x" 3 2 0 none) () (by decide)).2.1

/-! ### Claim theorems: the namespace adapter's buffered emission -/

/-- C3: one call to `step_write(item, buffer)` on a `TableRowDrop` with
positive group size writes the pending closing markup (popped if present,
nothing if the stack is empty), then steps the metadata, then writes an
opening row tag with the row number exactly when `col = 1` and
`row ≤ nrows`, then writes the opening cell tag with the column number; and
it pushes `"</td></tr>"` when `col = ncols` or `index = length`, and
`"</td>"` otherwise. -/
theorem claim_c3_step_write {α : Type} (d : TableRowDrop α) (x : α)
    (hpos : 0 < d.tablerow.ncols) :
    (d.step_write x).2
      = (match d.exit with | [] => "" | e :: _ => e)
        ++ (if (d.tablerow.step x).col = 1
              ∧ (d.tablerow.step x).row ≤ (d.tablerow.step x).nrows then
             "<tr class=\"row" ++ toString (d.tablerow.step x).row ++ "\">"
           else "")
        ++ ("<td class=\"col" ++ toString (d.tablerow.step x).col ++ "\">")
    ∧ (d.step_write x).1.tablerow = d.tablerow.step x
    ∧ (d.step_write x).1.exit
        = (if (d.tablerow.step x).col = d.tablerow.ncols
             ∨ (d.tablerow.step x).index = d.tablerow.length then
            "</td></tr>"
           else "</td>") :: d.exit.tail := by
  obtain ⟨tr, nm, es⟩ := d
  cases es <;>
    simp [TableRowDrop.step_write, TableRowDrop.empty_exit_buffer,
      TableRowDrop.step, TableRow.step_ncols, TableRow.step_length,
      String.append_assoc]

/-- Witness for C3 at a concrete adapter state. -/
theorem claim_c3_step_write_witness :
    ((⟨canonTR (α := Unit) "x" 3 2 0 none, "x", []⟩ : TableRowDrop Unit).step_write ()).1.tablerow
      = (canonTR (α := Unit) "x" 3 2 0 none).step () :=
  (claim_c3_step_write ⟨canonTR "x" 3 2 0 none, "x", []⟩ () (by decide)).2.1

/-! ### Claim theorems: construction -/

/-- C6 (amended): `TableRow.__init__` performs no group-size validation.
Construction fails exactly when `ncols = 0`, and then with a
`ZeroDivisionError` from `math.ceil(length / ncols)`, not with an
invalid-argument condition; every nonzero `ncols`, negative values
included, succeeds. -/
theorem claim_c6_amended (name : String) (len c : Int) :
    ((TableRow.init (α := Unit) name len c).isOk = true ↔ c ≠ 0)
    ∧ TableRow.init (α := Unit) name len 0 = .error .zeroDivisionError := by
  constructor
  · by_cases hc : c = 0 <;> simp [TableRow.init, hc, Except.isOk, Except.toBool]
  · simp [TableRow.init]

/-- C6 counterexample: the claim says construction with `group_size < 1`
fails with an `InvalidArgument` condition, but constructing with group size
`-1` succeeds (returning an object with `nrows = -3`). -/
theorem claim_c6_counterexample :
    (TableRow.init (α := Unit) "x" 3 (-1)).isOk = true
    ∧ (TableRow.init (α := Unit) "x" 3 (-1)).toOption.map (fun tr => tr.nrows)
        = some (-3) := by
  constructor <;> decide

/-! ### Claim theorems: the group-size type check -/

/-- C7 (amended): a group-size expression that evaluates to a non-integer
(here a string) makes the interpreter path abort with an `AssertionError`
(from `assert isinstance(cols, int)`), not with a `TypeError` condition,
and the abort happens before any row markup is written: the output is
empty. -/
theorem claim_c7_amended {α : Type} (items : List α) (name : String)
    (body : TableRow α → String) (s : String) :
    render_to_output items (some (.str s)) name body
      = ("", some .assertionError) := rfl

/-- C7 counterexample: at a concrete input whose group-size expression
evaluated to the string `"3"`, rendering aborts with `AssertionError`,
which is not the `TypeError` condition the claim names. -/
theorem claim_c7_counterexample :
    render_to_output ([()] : List Unit) (some (.str "3")) "x" (fun _ => "")
      = ("", some .assertionError)
    ∧ (some PyErr.assertionError ≠ some PyErr.typeError) :=
  ⟨rfl, by decide⟩

/-! ### Claim theorems: mapping lookups -/

/-- C9 (amended): `TableRow` lookup returns the corresponding field value
for each of the eleven documented names and raises `KeyError` for any other
key; `TableRowDrop` lookup returns the wrapped metadata object for the
fixed key `"tablerowloop"` (this fixed key is tested first and takes
precedence even when the loop variable has the same name), returns the
metadata object's current item for the loop-variable name when that name
differs from the fixed key, and raises `KeyError` for any other key. -/
theorem claim_c9_amended {α : Type} (tr : TableRow α) (d : TableRowDrop α)
    (key : String) (hkeys : tr.keys = tablerowKeys) :
    (key ∉ tablerowKeys → tr.getItem key = .error (.keyError key))
    ∧ tr.getItem "length" = .ok (.int tr.length)
    ∧ tr.getItem "index" = .ok (.int tr.index)
    ∧ tr.getItem "index0" = .ok (.int tr.index0)
    ∧ tr.getItem "rindex" = .ok (.int tr.rindex)
    ∧ tr.getItem "rindex0" = .ok (.int tr.rindex0)
    ∧ tr.getItem "first" = .ok (.bool tr.first)
    ∧ tr.getItem "last" = .ok (.bool tr.last)
    ∧ tr.getItem "col" = .ok (.int tr.col)
    ∧ tr.getItem "col0" = .ok (.int tr.col0)
    ∧ tr.getItem "col_first" = .ok (.bool tr.col_first)
    ∧ tr.getItem "col_last" = .ok (.bool tr.col_last)
    ∧ d.getItem "tablerowloop" = .ok (.loop d.tablerow)
    ∧ (key = d.name → key ≠ "tablerowloop" →
        d.getItem key = .ok (.item d.tablerow.item))
    ∧ (key ≠ "tablerowloop" → key ≠ d.name →
        d.getItem key = .error (.keyError key)) := by
  refine ⟨?_, ?_, ?_, ?_, ?_, ?_, ?_, ?_, ?_, ?_, ?_, ?_, ?_, ?_, ?_⟩
  · intro hk
    simp [TableRow.getItem, hkeys, hk]
  all_goals
    simp_all [TableRow.getItem, TableRow.getattr, TableRowDrop.getItem,
      tablerowKeys]

/-- Witness for C9 at concrete inputs. -/
theorem claim_c9_amended_witness :
    (canonTR (α := Unit) "w" 1 1 0 none).getItem "junk"
      = .error (.keyError "junk") :=
  (claim_c9_amended (canonTR "w" 1 1 0 none)
    ⟨canonTR "w" 1 1 0 none, "w", []⟩ "junk" (by decide)).1 (by decide)

/-- C9 counterexample: when the loop variable is itself named
`"tablerowloop"`, looking that name up returns the wrapped metadata
mapping, not the current item (`None`) that the claim requires for the
loop-variable name. -/
theorem claim_c9_counterexample :
    (TableRowDrop.init (α := Unit) "tablerowloop" 1 1).toOption.map
        (fun d => decide (d.getItem "tablerowloop" = .ok (.item d.tablerow.item)))
      = some false
    ∧ (TableRowDrop.init (α := Unit) "tablerowloop" 1 1).toOption.map
        (fun d => decide (d.getItem "tablerowloop" = .ok (.loop d.tablerow)))
      = some true := by
  constructor <;> decide

/-! ### Claim theorems: the empty sequence without a group size -/

/-- C10: rendering an empty sequence with no group-size expression writes
exactly one row — the opening tag for row 1 immediately followed by the
closing row tag, with no cell markup between them — raises no error, and
performs zero calls to `step`: the drop state passes through the rendering
loop unchanged. -/
theorem claim_c10_empty_sequence (α : Type) (name : String)
    (body : TableRow α → String) :
    render_to_output ([] : List α) none name body
      = ("<tr class=\"row1\"></tr>", none)
    ∧ (interpChunks (⟨canonTR name 0 1 0 none, name, []⟩ : TableRowDrop α)
        [[]] body 0).1
      = ⟨canonTR name 0 1 0 none, name, []⟩ := by
  constructor
  · simp [render_to_output, TableRowDrop.init, TableRow.init, interpChunks,
      interpRow]
    rfl
  · rfl

/-! ### The canonical run of `step` -/

theorem succ_div_of_mod_eq_zero (t c : Nat) (h : (t + 1) % c = 0) :
    (t + 1) / c = t / c + 1 := by
  rw [Nat.succ_div]
  simp [Nat.dvd_iff_mod_eq_zero, h]

theorem succ_div_of_mod_ne_zero (t c : Nat) (h : (t + 1) % c ≠ 0) :
    (t + 1) / c = t / c := by
  rw [Nat.succ_div]
  simp [Nat.dvd_iff_mod_eq_zero, h]

/-- The `row` update of one `step`, restated on canonical values. -/
theorem row_step_eq (t c : Nat) :
    (if (((t + 1) % c : Nat) : Int) + 1 = 1 then ((t / c : Nat) : Int) + 1 + 1
     else ((t / c : Nat) : Int) + 1) = (((t + 1) / c : Nat) : Int) + 1 := by
  by_cases h : (t + 1) % c = 0
  · rw [if_pos (by rw [h]; simp), succ_div_of_mod_eq_zero t c h]
    push_cast
    ring
  · rw [if_neg (by intro hcon; exact h (by omega)),
      succ_div_of_mod_ne_zero t c h]

/-- Stepping the canonical state after `s` steps yields the canonical state
after `s + 1` steps. -/
theorem step_canonTR {α : Type} (name : String) (n c : Nat) (hc : 0 < c)
    (s : Nat) (it : Option α) (x : α) :
    (canonTR name n c s it).step x = canonTR name n c (s + 1) (some x) := by
  cases s with
  | zero =>
      have h0 : Int.fmod (-1 + 1 : Int) (c : Int) = ((0 % c : Nat) : Int) := by
        have h := fmod_natCast 0 c
        simpa using h
      simp only [canonTR, TableRow.step, TableRow.mk.injEq, h0]
      and_intros <;>
        first
          | rfl
          | trivial
          | (rw [decide_eq_decide]; omega)
          | (push_cast; omega)
          | (simp [Nat.zero_mod, Nat.zero_div])
  | succ t =>
      have hsc : ((t + 1 : Nat) : Int) - 1 + 1 = ((t + 1 : Nat) : Int) := by
        omega
      have hm : Int.fmod (((t + 1 : Nat) : Int) - 1 + 1) (c : Int)
          = (((t + 1) % c : Nat) : Int) := by
        rw [hsc, fmod_natCast]
      simp only [canonTR, TableRow.step, TableRow.mk.injEq, hm]
      and_intros <;>
        first
          | rfl
          | trivial
          | (rw [decide_eq_decide]; omega)
          | (push_cast; omega)
          | exact row_step_eq t c

/-- `TableRow.__init__` with nonnegative length and positive group size
yields the canonical initial state. -/
theorem tableRow_init_eq_canonTR {α : Type} (name : String) (n c : Nat)
    (hc : 0 < c) :
    TableRow.init (α := α) name (n : Int) (c : Int)
      = .ok (canonTR name n c 0 none) := by
  rw [TableRow.init, if_neg (by exact_mod_cast Nat.pos_iff_ne_zero.mp hc)]
  rfl

/-- Folding `step` over a list advances the canonical state by the list's
length. -/
theorem foldl_step_canonTR {α : Type} (name : String) (n c : Nat) (hc : 0 < c) :
    ∀ (l : List α) (s : Nat) (it : Option α),
      ∃ it', l.foldl TableRow.step (canonTR name n c s it)
        = canonTR name n c (s + l.length) it' ∧ (l = [] → it' = it) := by
  intro l
  induction l with
  | nil =>
      intro s it
      exact ⟨it, by simp, fun _ => rfl⟩
  | cons x xs ih =>
      intro s it
      obtain ⟨it', h1, -⟩ := ih (s + 1) (some x)
      refine ⟨it', ?_, by simp⟩
      simp only [List.foldl_cons, step_canonTR name n c hc s it x]
      rw [h1]
      congr 1
      simp
      omega

theorem canonTR_index {α : Type} (name : String) (n c k : Nat) (it : Option α) :
    (canonTR name n c k it).index = (k : Int) := by
  cases k <;> simp [canonTR]

theorem canonTR_rindex {α : Type} (name : String) (n c k : Nat) (it : Option α) :
    (canonTR name n c k it).rindex = (n : Int) - (k : Int) + 1 := by
  cases k <;> simp [canonTR]

theorem canonTR_rindex0 {α : Type} (name : String) (n c k : Nat) (it : Option α) :
    (canonTR name n c k it).rindex0 = (n : Int) - (k : Int) := by
  cases k <;> simp [canonTR]

theorem canonTR_last {α : Type} (name : String) (n c k : Nat) (it : Option α) :
    (canonTR name n c k it).last = decide (k = n ∧ 0 < k) := by
  cases k with
  | zero => simp [canonTR]
  | succ t =>
      simp only [canonTR]
      rw [decide_eq_decide]
      omega

theorem canonTR_nrows {α : Type} (name : String) (n c k : Nat) (it : Option α) :
    (canonTR name n c k it).nrows = mathCeilDiv (n : Int) (c : Int) := by
  cases k <;> simp [canonTR]

theorem canonTR_ncols {α : Type} (name : String) (n c k : Nat) (it : Option α) :
    (canonTR name n c k it).ncols = (c : Int) := by
  cases k <;> simp [canonTR]

/-! ### Claim theorems: end-of-loop counters -/

/-- C4 (amended): for nonnegative `total_length` and positive `group_size`,
a freshly constructed `TableRow` has `nrows = ceil(total_length /
group_size)`; after exactly `total_length` calls to `step`,
`index = total_length`, `rindex = 1` (equivalently `rindex0 = 0`; the claim
said `rindex = 0`, but `rindex` is the one-based reverse position and ends
at `1`), and `last` is true on the final step and false on every prior
step. -/
theorem claim_c4_amended {α : Type} (name : String) (n c : Nat) (hc : 0 < c)
    (tr0 : TableRow α)
    (hinit : TableRow.init (α := α) name (n : Int) (c : Int) = .ok tr0)
    (items : List α) (hlen : items.length = n) :
    tr0.nrows = (((n + c - 1) / c : Nat) : Int)
    ∧ (items.foldl TableRow.step tr0).index = (n : Int)
    ∧ (items.foldl TableRow.step tr0).rindex = 1
    ∧ (items.foldl TableRow.step tr0).rindex0 = 0
    ∧ (0 < n → (items.foldl TableRow.step tr0).last = true)
    ∧ (∀ pre suf, items = pre ++ suf → suf ≠ [] →
        (pre.foldl TableRow.step tr0).last = false) := by
  have h0 : tr0 = canonTR name n c 0 none := by
    have h := tableRow_init_eq_canonTR (α := α) name n c hc
    rw [hinit] at h
    exact Except.ok.inj h
  subst h0
  obtain ⟨it', hfold, -⟩ := foldl_step_canonTR name n c hc items 0 none
  rw [hlen, Nat.zero_add] at hfold
  rw [hfold]
  refine ⟨?_, ?_, ?_, ?_, ?_, ?_⟩
  · rw [canonTR_nrows, mathCeilDiv_natCast n c hc]
  · rw [canonTR_index]
  · rw [canonTR_rindex]
    omega
  · rw [canonTR_rindex0]
    omega
  · intro hn
    rw [canonTR_last, decide_eq_true_iff]
    exact ⟨rfl, hn⟩
  · intro pre suf hsplit hne
    obtain ⟨itp, hfoldp, -⟩ := foldl_step_canonTR name n c hc pre 0 none
    rw [Nat.zero_add] at hfoldp
    rw [hfoldp, canonTR_last]
    have hlt : pre.length < n := by
      have : pre.length + suf.length = n := by
        rw [← hlen, hsplit, List.length_append]
      have : suf.length ≠ 0 := fun hz => hne (List.length_eq_zero.mp hz)
      omega
    simp only [decide_eq_false_iff_not]
    rintro ⟨heq, -⟩
    omega

/-- C4 counterexample: with `total_length = 1` and `group_size = 1`, after
one `step` the object has `rindex = 1`, not `rindex = 0` as claimed. -/
theorem claim_c4_counterexample :
    (TableRow.init (α := Unit) "x" 1 1).toOption.map
        (fun tr => (tr.step ()).rindex) = some 1
    ∧ (TableRow.init (α := Unit) "x" 1 1).toOption.map
        (fun tr => (tr.step ()).rindex) ≠ some 0 := by
  constructor <;> decide

/-- Witness for C4 at concrete inputs. -/
theorem claim_c4_amended_witness :
    (([(), (), (), (), ()] : List Unit).foldl TableRow.step
        (canonTR "x" 5 3 0 none)).rindex = 1 :=
  (claim_c4_amended "x" 5 3 (by decide) (canonTR "x" 5 3 0 none)
    (tableRow_init_eq_canonTR "x" 5 3 (by decide)) [(), (), (), (), ()]
    (by decide)).2.2.1

/-! ### Claim theorems: the column invariant -/

/-- Column facts about a single `step` on any state with positive group
size. -/
theorem step_col_facts {α : Type} (tr : TableRow α) (x : α)
    (hpos : 0 < tr.ncols) :
    1 ≤ (tr.step x).col ∧ (tr.step x).col ≤ tr.ncols
    ∧ ((tr.step x).col_first = true ↔ (tr.step x).col = 1)
    ∧ ((tr.step x).col_last = true ↔ (tr.step x).col = tr.ncols) := by
  have h1 : 0 ≤ Int.fmod (tr.index0 + 1) tr.ncols :=
    Int.fmod_nonneg' _ hpos
  have h2 : Int.fmod (tr.index0 + 1) tr.ncols < tr.ncols :=
    Int.fmod_lt_of_pos _ hpos
  simp only [TableRow.step, decide_eq_true_iff]
  and_intros <;> first | trivial | omega

/-- Folding `step` never changes `ncols`. -/
theorem foldl_step_ncols {α : Type} (l : List α) (tr : TableRow α) :
    (l.foldl TableRow.step tr).ncols = tr.ncols := by
  induction l generalizing tr with
  | nil => rfl
  | cons x xs ih => rw [List.foldl_cons, ih, TableRow.step_ncols]

/-- C5: on any `TableRow` constructed with positive group size, after every
positive number of `step` calls, `1 ≤ col ≤ group_size`, `col_first` holds
exactly when `col = 1`, and `col_last` exactly when `col = group_size`. -/
theorem claim_c5_column_invariant {α : Type} (name : String) (len : Int)
    (c : Nat) (hc : 0 < c) (tr0 : TableRow α)
    (hinit : TableRow.init (α := α) name len (c : Int) = .ok tr0)
    (items : List α) (hne : items ≠ []) :
    1 ≤ (items.foldl TableRow.step tr0).col
    ∧ (items.foldl TableRow.step tr0).col ≤ (c : Int)
    ∧ ((items.foldl TableRow.step tr0).col_first = true
        ↔ (items.foldl TableRow.step tr0).col = 1)
    ∧ ((items.foldl TableRow.step tr0).col_last = true
        ↔ (items.foldl TableRow.step tr0).col = (c : Int)) := by
  have hn0 : tr0.ncols = (c : Int) := by
    rw [TableRow.init, if_neg (by exact_mod_cast Nat.pos_iff_ne_zero.mp hc)]
      at hinit
    rw [← Except.ok.inj hinit]
  rcases items.eq_nil_or_concat' with rfl | ⟨L, y, rfl⟩
  · exact absurd rfl hne
  · rw [List.foldl_append, List.foldl_cons, List.foldl_nil]
    have hnc : (L.foldl TableRow.step tr0).ncols = (c : Int) := by
      rw [foldl_step_ncols, hn0]
    have h := step_col_facts (L.foldl TableRow.step tr0) y (by rw [hnc]; positivity)
    rw [hnc] at h
    exact h

/-- Witness for C5 at concrete inputs. -/
theorem claim_c5_column_invariant_witness :
    (([(), ()] : List Unit).foldl TableRow.step (canonTR "x" 2 3 0 none)).col
      ≤ ((3 : Nat) : Int) :=
  (claim_c5_column_invariant "x" ((2 : Nat) : Int) 3 (by decide)
    (canonTR "x" 2 3 0 none) (tableRow_init_eq_canonTR "x" 2 3 (by decide))
    [(), ()] (by decide)).2.1

/-! ### Claim theorems: rendering without a group size -/

theorem str_foldl_append (l : List String) (x : String) :
    l.foldl (· ++ ·) x = x ++ l.foldl (· ++ ·) "" := by
  induction l generalizing x with
  | nil => simp
  | cons a as ih =>
      rw [List.foldl_cons, List.foldl_cons, ih (x ++ a), ih ("" ++ a),
        String.empty_append, String.append_assoc]

theorem str_join_cons (a : String) (l : List String) :
    String.join (a :: l) = a ++ String.join l := by
  simp only [String.join, List.foldl_cons, String.empty_append]
  exact str_foldl_append l a

/-- `TableRowDrop.__init__` with nonnegative length and positive group size
yields the canonical initial state and an empty pending stack. -/
theorem tableRowDrop_init_eq_canonTR {α : Type} (name : String) (n c : Nat)
    (hc : 0 < c) :
    TableRowDrop.init (α := α) name (n : Int) (c : Int)
      = .ok ⟨canonTR name n c 0 none, name, []⟩ := by
  rw [TableRowDrop.init, tableRow_init_eq_canonTR name n c hc]

/-- The interpreter's inner cell loop over a single chunk when the drop was
built with group size 1 (the no-cols path): each element becomes one cell,
numbered by its `enumerate` position. -/
theorem interpRow_one_col {α : Type} (name : String) (n : Nat)
    (body : TableRow α → String) :
    ∀ (q : List α) (j : Nat) (it : Option α) (nm : String) (es : List String),
      (interpRow ⟨canonTR name n 1 j it, nm, es⟩ q body j).2
        = String.join ((q.enumFrom j).map (fun p =>
            "<td class=\"col" ++ toString (p.1 + 1) ++ "\">"
              ++ body (canonTR name n 1 (p.1 + 1) (some p.2)) ++ "</td>")) := by
  intro q
  induction q with
  | nil => intro j it nm es; rfl
  | cons x xs ih =>
      intro j it nm es
      simp only [interpRow, TableRowDrop.step,
        step_canonTR name n 1 (by decide) j it x, List.enumFrom, List.map,
        str_join_cons]
      rw [ih (j + 1) (some x) nm es]

/-- C8 (amended): when the tag has no group-size expression, the
interpreter path emits a single row — the opening tag for row 1, then one
cell per item with cell numbers counting up from 1 across the whole
sequence, then one closing row tag — while the metadata drop is constructed
with group size 1.  (The claim's "one row per item" is wrong: the whole
sequence is wrapped in one row, and the cell numbers are not computed from
the group size 1.) -/
theorem claim_c8_amended {α : Type} (items : List α) (name : String)
    (body : TableRow α → String) :
    render_to_output items none name body
      = ("<tr class=\"row1\">"
          ++ String.join (items.enum.map (fun p =>
              "<td class=\"col" ++ toString (p.1 + 1) ++ "\">"
                ++ body (canonTR name items.length 1 (p.1 + 1) (some p.2))
                ++ "</td>"))
          ++ "</tr>", none) := by
  have hd : TableRowDrop.init (α := α) name (items.length : Int) 1
      = .ok ⟨canonTR name items.length 1 0 none, name, []⟩ := by
    have h := tableRowDrop_init_eq_canonTR (α := α) name items.length 1
      (by decide)
    exact_mod_cast h
  have hrow : ("<tr class=\"row" ++ toString (0 + 1 : Nat) ++ "\">" : String)
      = "<tr class=\"row1\">" := rfl
  simp only [render_to_output, hd, interpChunks]
  rw [interpRow_one_col name items.length body items 0 none name []]
  simp only [hrow, String.append_empty, Prod.mk.injEq, and_true]
  rfl

/-! ### The two backends agree: canonical form of one emission step -/

theorem canonTR_succ_col {α : Type} (name : String) (n c s : Nat)
    (it : Option α) :
    (canonTR name n c (s + 1) it).col = ((s % c : Nat) : Int) + 1 := rfl

theorem canonTR_succ_row {α : Type} (name : String) (n c s : Nat)
    (it : Option α) :
    (canonTR name n c (s + 1) it).row = ((s / c : Nat) : Int) + 1 := rfl

theorem canonTR_succ_index {α : Type} (name : String) (n c s : Nat)
    (it : Option α) :
    (canonTR name n c (s + 1) it).index = ((s + 1 : Nat) : Int) := rfl

theorem canonTR_length {α : Type} (name : String) (n c k : Nat)
    (it : Option α) :
    (canonTR name n c k it).length = (n : Int) := by
  cases k <;> rfl

theorem toString_cast_add_one (m : Nat) :
    toString ((m : Int) + 1) = toString (m + 1) := by
  have h : ((m : Int) + 1) = ((m + 1 : Nat) : Int) := by push_cast; ring
  rw [h, toString_intCast]

theorem row_le_nrows (s n c : Nat) (hc : 0 < c) (hs : s < n) :
    s / c + 1 ≤ (n + c - 1) / c := by
  rw [← Nat.add_div_right s hc]
  exact Nat.div_le_div_right (by omega)

/-- One `step_write` from the canonical state after `s < n` steps: it
writes the pending flush followed by the markup `pieceOpen` opens for
position `s + 1`, and leaves the closing markup for position `s + 1` on
top of the pending stack. -/
theorem step_write_canonTR {α : Type} (name : String) (n c : Nat) (hc : 0 < c)
    (s : Nat) (hs : s < n) (it : Option α) (nm : String) (es : List String)
    (x : α) :
    TableRowDrop.step_write ⟨canonTR name n c s it, nm, es⟩ x
      = (⟨canonTR name n c (s + 1) (some x), nm,
          pieceClose n c (s + 1) :: es.tail⟩,
         (match es with | [] => "" | e :: _ => e) ++ pieceOpen c (s + 1)) := by
  have hflush : (⟨canonTR name n c s it, nm, es⟩ : TableRowDrop α).empty_exit_buffer
      = (⟨canonTR name n c s it, nm, es.tail⟩,
         (match es with | [] => "" | e :: _ => e)) := by
    cases es <;> rfl
  simp only [TableRowDrop.step_write, hflush, TableRowDrop.step,
    step_canonTR name n c hc s it x, canonTR_succ_col, canonTR_succ_row,
    canonTR_succ_index, canonTR_nrows, canonTR_ncols, canonTR_length,
    mathCeilDiv_natCast n c hc]
  have hiff : ((((s % c : Nat) : Int) + 1 = 1)
        ∧ (((s / c : Nat) : Int) + 1 ≤ (((n + c - 1) / c : Nat) : Int)))
      ↔ s % c = 0 := by
    constructor
    · rintro ⟨h1, -⟩
      omega
    · intro h
      refine ⟨by omega, ?_⟩
      have hb := row_le_nrows s n c hc hs
      push_cast
      omega
  have hclose : ((((s % c : Nat) : Int) + 1 = ((c : Nat) : Int))
        ∨ (((s + 1 : Nat) : Int) = ((n : Nat) : Int)))
      ↔ (s % c + 1 = c ∨ s + 1 = n) := by
    constructor
    · rintro (h | h)
      · left; omega
      · right; omega
    · rintro (h | h)
      · left; omega
      · right; omega
  have hexit : (if ((((s % c : Nat) : Int) + 1 = ((c : Nat) : Int))
        ∨ (((s + 1 : Nat) : Int) = ((n : Nat) : Int))) then "</td></tr>"
       else "</td>")
      = pieceClose n c (s + 1) := by
    rw [pieceClose]
    simp only [Nat.add_sub_cancel]
    exact if_congr hclose rfl rfl
  refine Prod.ext ?_ ?_
  · rw [hexit]
  · simp only [pieceOpen, Nat.add_sub_cancel, if_congr hiff rfl rfl,
      toString_cast_add_one, String.append_assoc]

/-- The VM loop from the canonical state after `s` steps, followed by the
scope-exit flush, produces the pending flush and then the canonical output
of the remaining items. -/
theorem vmSteps_canonTR {α : Type} (name : String) (n c : Nat) (hc : 0 < c)
    (body : TableRow α → String) :
    ∀ (rest : List α) (s : Nat) (it : Option α) (nm : String)
      (es : List String), s + rest.length = n →
      (vmSteps ⟨canonTR name n c s it, nm, es⟩ rest body).2
        ++ ((vmSteps ⟨canonTR name n c s it, nm, es⟩ rest body).1.empty_exit_buffer).2
      = (match es with | [] => "" | e :: _ => e) ++ tailOut name n c body s rest := by
  intro rest
  induction rest with
  | nil =>
      intro s it nm es hlen
      cases es <;>
        simp [vmSteps, TableRowDrop.empty_exit_buffer, tailOut,
          String.empty_append, String.append_empty]
  | cons x xs ih =>
      intro s it nm es hlen
      have hs : s < n := by
        simp only [List.length_cons] at hlen
        omega
      have hlen2 : (s + 1) + xs.length = n := by
        simp only [List.length_cons] at hlen
        omega
      have h2 := ih (s + 1) (some x) nm (pieceClose n c (s + 1) :: es.tail)
        hlen2
      simp only [vmSteps, step_write_canonTR name n c hc s hs it nm es x]
      simp only [vmSteps] at h2
      rw [tailOut]
      simp only [String.append_assoc]
      rw [h2]

theorem pieceOpen_chunk (k j c : Nat) (hc : 0 < c) (hj : j < c) :
    pieceOpen c (k * c + j + 1)
      = (if j = 0 then "<tr class=\"row" ++ toString (k + 1) ++ "\">" else "")
        ++ "<td class=\"col" ++ toString (j + 1) ++ "\">" := by
  rw [pieceOpen]
  have h1 : k * c + j + 1 - 1 = k * c + j := by omega
  have h2 : (k * c + j) % c = j := by
    rw [Nat.mul_comm k c, Nat.mul_add_mod, Nat.mod_eq_of_lt hj]
  rw [h1, h2]
  by_cases hj0 : j = 0
  · subst hj0
    rw [if_pos rfl, if_pos rfl]
    have h3 : (k * c + 0) / c = k := by
      rw [Nat.add_zero, Nat.mul_div_cancel _ hc]
    rw [h3]
  · rw [if_neg hj0, if_neg hj0]

theorem pieceClose_last (n c k j : Nat) (hj : j < c)
    (hcond : j + 1 = c ∨ k * c + j + 1 = n) :
    pieceClose n c (k * c + j + 1) = "</td></tr>" := by
  rw [pieceClose]
  apply if_pos
  have h1 : k * c + j + 1 - 1 = k * c + j := by omega
  have h2 : (k * c + j) % c = j := by
    rw [Nat.mul_comm k c, Nat.mul_add_mod, Nat.mod_eq_of_lt hj]
  rcases hcond with h | h
  · left
    rw [h1, h2]
    exact h
  · right
    exact h

theorem pieceClose_mid (n c k j : Nat) (hj : j + 1 < c)
    (hn : k * c + j + 1 < n) :
    pieceClose n c (k * c + j + 1) = "</td>" := by
  rw [pieceClose]
  apply if_neg
  have h1 : k * c + j + 1 - 1 = k * c + j := by omega
  have h2 : (k * c + j) % c = j := by
    rw [Nat.mul_comm k c, Nat.mul_add_mod, Nat.mod_eq_of_lt (by omega)]
  rw [h1, h2]
  rintro (h | h) <;> omega

theorem str_td_tr (t : String) :
    "</td>" ++ ("</tr>" ++ t) = "</td></tr>" ++ t := by
  rw [← String.append_assoc]
  rfl

theorem interpRow_nil_fst {α : Type} (d : TableRowDrop α)
    (body : TableRow α → String) (j : Nat) :
    (interpRow d [] body j).1 = d := rfl

theorem interpRow_nil_snd {α : Type} (d : TableRowDrop α)
    (body : TableRow α → String) (j : Nat) :
    (interpRow d [] body j).2 = "" := rfl

theorem interpRow_cons_fst {α : Type} (d : TableRowDrop α) (x : α)
    (xs : List α) (body : TableRow α → String) (j : Nat) :
    (interpRow d (x :: xs) body j).1
      = (interpRow (d.step x) xs body (j + 1)).1 := rfl

theorem interpRow_cons_snd {α : Type} (d : TableRowDrop α) (x : α)
    (xs : List α) (body : TableRow α → String) (j : Nat) :
    (interpRow d (x :: xs) body j).2
      = "<td class=\"col" ++ toString (j + 1) ++ "\">"
          ++ body (d.step x).tablerow ++ "</td>"
          ++ (interpRow (d.step x) xs body (j + 1)).2 := rfl

theorem drop_step_mk {α : Type} (tr : TableRow α) (nm : String)
    (es : List String) (x : α) :
    (⟨tr, nm, es⟩ : TableRowDrop α).step x = ⟨tr.step x, nm, es⟩ := rfl

theorem drop_tablerow_mk {α : Type} (tr : TableRow α) (nm : String)
    (es : List String) :
    (⟨tr, nm, es⟩ : TableRowDrop α).tablerow = tr := rfl

theorem tailOut_cons {α : Type} (name : String) (n c : Nat)
    (body : TableRow α → String) (s : Nat) (x : α) (xs : List α) :
    tailOut name n c body s (x :: xs)
      = pieceOpen c (s + 1) ++ body (canonTR name n c (s + 1) (some x))
          ++ pieceClose n c (s + 1) ++ tailOut name n c body (s + 1) xs := rfl

/-- The interpreter's cell loop over the tail of one chunk, from the
canonical state, produces exactly the canonical per-element markup: the row
tag (at the chunk's first cell), each cell with its body, and — once the
trailing `"</tr>"` the outer loop writes is appended — the canonical
closing markup of every cell including the row-closing one. -/
theorem interpRow_chunk_canonTR {α : Type} (name : String) (n c : Nat)
    (hc : 0 < c) (body : TableRow α → String) :
    ∀ (q : List α) (k j : Nat) (it : Option α) (nm : String)
      (es : List String) (rest2 : List α),
      q ≠ [] → j + q.length ≤ c →
      (j + q.length = c ∨ k * c + j + q.length = n) →
      k * c + j + q.length ≤ n →
      ∃ it',
        (interpRow ⟨canonTR name n c (k * c + j) it, nm, es⟩ q body j).1
          = ⟨canonTR name n c (k * c + j + q.length) it', nm, es⟩
        ∧ (if j = 0 then "<tr class=\"row" ++ toString (k + 1) ++ "\">" else "")
            ++ (interpRow ⟨canonTR name n c (k * c + j) it, nm, es⟩ q body j).2
            ++ ("</tr>" ++ tailOut name n c body (k * c + j + q.length) rest2)
          = tailOut name n c body (k * c + j) (q ++ rest2) := by
  intro q
  induction q with
  | nil =>
      intro k j it nm es rest2 hne
      exact absurd rfl hne
  | cons x q' ih =>
      intro k j it nm es rest2 hne hle hcond hn
      simp only [List.length_cons] at hle hcond hn
      have hjc : j < c := by omega
      cases q' with
      | nil =>
          simp only [List.length_nil, Nat.zero_add] at hle hcond hn
          refine ⟨some x, ?_, ?_⟩
          · rw [interpRow_cons_fst, drop_step_mk,
              step_canonTR name n c hc (k * c + j) it x, interpRow_nil_fst]
            simp only [List.length_cons, List.length_nil, Nat.zero_add]
          · rw [interpRow_cons_snd, drop_step_mk,
              step_canonTR name n c hc (k * c + j) it x, interpRow_nil_snd,
              drop_tablerow_mk]
            simp only [List.length_cons, List.length_nil, Nat.zero_add]
            rw [show ([x] : List α) ++ rest2 = x :: rest2 from rfl,
              tailOut_cons, pieceOpen_chunk k j c hc hjc,
              pieceClose_last n c k j hjc hcond]
            simp only [String.append_empty, String.append_assoc, str_td_tr]
      | cons y q'' =>
          simp only [List.length_cons] at hle hcond hn
          have hcond2 : (j + 1) + (y :: q'').length = c
              ∨ k * c + (j + 1) + (y :: q'').length = n := by
            simp only [List.length_cons]
            rcases hcond with h | h
            · left; omega
            · right; omega
          obtain ⟨it', ha, hb⟩ := ih k (j + 1) (some x) nm es rest2
            (by simp) (by simp only [List.length_cons]; omega) hcond2
            (by simp only [List.length_cons]; omega)
          rw [show k * c + (j + 1) = k * c + j + 1 from by omega] at ha hb
          simp only [List.length_cons] at ha hb
          rw [if_neg (by omega : ¬ (j + 1 = 0)), String.empty_append] at hb
          refine ⟨it', ?_, ?_⟩
          · rw [interpRow_cons_fst, drop_step_mk,
              step_canonTR name n c hc (k * c + j) it x, ha]
            simp only [List.length_cons]
            rw [show k * c + j + (q''.length + 1 + 1)
                = k * c + j + 1 + (q''.length + 1) from by omega]
          · rw [interpRow_cons_snd, drop_step_mk,
              step_canonTR name n c hc (k * c + j) it x, drop_tablerow_mk]
            simp only [List.length_cons]
            rw [show k * c + j + (q''.length + 1 + 1)
                = k * c + j + 1 + (q''.length + 1) from by omega]
            rw [show (x :: y :: q'' : List α) ++ rest2
                = x :: ((y :: q'') ++ rest2) from rfl, tailOut_cons,
              pieceOpen_chunk k j c hc hjc,
              pieceClose_mid n c k j (by omega) (by omega), ← hb]
            simp only [String.append_assoc]

theorem grouperGo_nil {α : Type} (c f : Nat) :
    grouperGo (α := α) c f [] = [] := by
  cases f <;> rfl

theorem grouperGo_succ_cons {α : Type} (c f : Nat) (x : α) (xs : List α) :
    grouperGo c (f + 1) (x :: xs)
      = (x :: xs.take (c - 1)) :: grouperGo c f (xs.drop (c - 1)) := rfl

theorem interpChunks_nil_snd {α : Type} (d : TableRowDrop α)
    (body : TableRow α → String) (i : Nat) :
    (interpChunks d [] body i).2 = "" := rfl

theorem interpChunks_cons_snd {α : Type} (d : TableRowDrop α)
    (chunk : List α) (rest : List (List α)) (body : TableRow α → String)
    (i : Nat) :
    (interpChunks d (chunk :: rest) body i).2
      = "<tr class=\"row" ++ toString (i + 1) ++ "\">"
          ++ (interpRow d chunk body 0).2 ++ "</tr>"
          ++ (interpChunks (interpRow d chunk body 0).1 rest body (i + 1)).2 :=
  rfl

theorem tailOut_nil {α : Type} (name : String) (n c : Nat)
    (body : TableRow α → String) (s : Nat) :
    tailOut name n c body s [] = "" := rfl

/-- The interpreter's chunk loop from a canonical group boundary produces
the canonical output of the remaining items. -/
theorem interpChunks_canonTR {α : Type} (name : String) (n c : Nat)
    (hc : 0 < c) (body : TableRow α → String) :
    ∀ (fuel : Nat) (rem : List α) (k : Nat) (it : Option α) (nm : String)
      (es : List String),
      rem.length ≤ fuel → k * c + rem.length = n →
      (interpChunks ⟨canonTR name n c (k * c) it, nm, es⟩
          (grouperGo c fuel rem) body k).2
        = tailOut name n c body (k * c) rem := by
  intro fuel
  induction fuel with
  | zero =>
      intro rem k it nm es hfu hlen
      have hrem : rem = [] := List.length_eq_zero.mp (by omega)
      subst hrem
      rfl
  | succ f ihf =>
      intro rem k it nm es hfu hlen
      cases rem with
      | nil => rfl
      | cons x xs =>
          simp only [List.length_cons] at hfu hlen
          have hm : (x :: xs.take (c - 1)).length
              = min (c - 1) xs.length + 1 := by
            simp [List.length_take]
          obtain ⟨it', ha, hb⟩ :=
            interpRow_chunk_canonTR name n c hc body (x :: xs.take (c - 1))
              k 0 it nm es (xs.drop (c - 1)) (by simp)
              (by rw [hm]; omega)
              (by rw [hm]; omega)
              (by rw [hm]; omega)
          rw [if_pos rfl] at hb
          rw [show (x :: xs.take (c - 1)) ++ xs.drop (c - 1) = x :: xs from by
            rw [List.cons_append, List.take_append_drop]] at hb
          simp only [Nat.add_zero] at ha hb
          rw [grouperGo_succ_cons, interpChunks_cons_snd, ha]
          rcases Nat.le_total (c - 1) xs.length with hsp | hsp
          · -- full chunk: the next chunk starts at the next group boundary
            have hmc : (x :: xs.take (c - 1)).length = c := by
              rw [hm, Nat.min_eq_left hsp]
              omega
            rw [hmc] at hb ⊢
            rw [show k * c + c = (k + 1) * c from by ring]
            rw [ihf (xs.drop (c - 1)) (k + 1) it' nm es
              (by rw [List.length_drop]; omega)
              (by rw [List.length_drop]; ring_nf; omega)]
            rw [show (k + 1) * c = k * c + c from by ring]
            simp only [String.append_assoc] at hb ⊢
            exact hb
          · -- short final chunk: no further chunks
            have hdrop : xs.drop (c - 1) = [] :=
              List.drop_eq_nil_of_le hsp
            rw [hdrop, grouperGo_nil, interpChunks_nil_snd]
            rw [hdrop, tailOut_nil] at hb
            simp only [String.append_assoc, String.append_empty] at hb ⊢
            exact hb

/-! ### Claim theorems: backend equivalence -/

/-- C1: for every input sequence and positive group size, rendering the
grouped-iteration construct through the interpreter backend
(`TablerowNode.render_to_output`) and through the Compiler+VM path (the
compiled block of `TablerowNode.compile_node` executed with `step_write`
emission on `STEP` and a flush on `SCOPE_EXIT`, as the spec describes the
VM) produces byte-identical output — including the body rendered against
identical metadata states. -/
theorem claim_c1_interp_vm_equiv {α : Type} (items : List α) (c : Int)
    (name : String) (body : TableRow α → String) (hc : 0 < c) :
    render_to_output items (some (.int c)) name body
      = vmRender items c name body := by
  obtain ⟨cN, rfl⟩ : ∃ cN : Nat, (cN : Int) = c :=
    ⟨c.toNat, Int.toNat_of_nonneg (le_of_lt hc)⟩
  have hcN : 0 < cN := by exact_mod_cast hc
  have hd : TableRowDrop.init (α := α) name (items.length : Int) (cN : Int)
      = .ok ⟨canonTR name items.length cN 0 none, name, []⟩ :=
    tableRowDrop_init_eq_canonTR name items.length cN hcN
  have hi := interpChunks_canonTR name items.length cN hcN body items.length
    items 0 none name [] (Nat.le_refl _) (by simp)
  rw [Nat.zero_mul] at hi
  have hv := vmSteps_canonTR name items.length cN hcN body items 0 none name
    [] (by simp)
  rw [String.empty_append] at hv
  simp only [render_to_output, vmRender, hd, if_neg (by omega : ¬ ((cN : Int) < 0)),
    Int.toNat_natCast, grouper, if_neg (Nat.pos_iff_ne_zero.mp hcN)]
  rw [hi, hv]

/-- Witness for C1 at a concrete input. -/
theorem claim_c1_interp_vm_equiv_witness :
    render_to_output [10, 20, 30, 40, 50] (some (.int 3)) "x"
        (fun tr => toString tr.index)
      = vmRender [10, 20, 30, 40, 50] 3 "x" (fun tr => toString tr.index) :=
  claim_c1_interp_vm_equiv [10, 20, 30, 40, 50] 3 "x"
    (fun tr => toString tr.index) (by decide)

/-- C8 counterexample: with two items and no group-size expression the
interpreter emits a single row wrapping both cells (`col1`, `col2`), not
the one-row-per-item output (two rows, each a single `col1` cell) that the
claim describes. -/
theorem claim_c8_counterexample :
    render_to_output ([(), ()] : List Unit) none "x" (fun _ => "")
      = ("<tr class=\"row1\"><td class=\"col1\"></td><td class=\"col2\"></td></tr>",
         none)
    ∧ ("<tr class=\"row1\"><td class=\"col1\"></td><td class=\"col2\"></td></tr>"
        : String)
      ≠ "<tr class=\"row1\"><td class=\"col1\"></td></tr><tr class=\"row2\"><td class=\"col1\"></td></tr>" := by
  constructor <;> decide
